import Mathlib

/-!
# Verification of the memorybook face-service embedding registry and matcher

Shallow embedding of `python-face-service` (files `face_api.py` and
`face_service.py`) and proofs about its matching, registration and batch
orchestration logic.

Modelling conventions:
* Embedding vectors are lists of rationals (`Vec`); Python floats are modelled
  by `ℚ`.
* The distance metric (`face_recognition.face_distance`, an external library
  call) is an explicit function parameter `d : Vec → Vec → ℚ` of every
  definition that uses it; the matcher's own logic never inspects it.
* Thresholds live in `WithTop ℚ` so that the `threshold = +∞` case of the
  specification is expressible; the Python comparison `dist <= threshold` is
  `(dist : WithTop ℚ) ≤ t`.
* The external extractor is modelled per the spec's contract ("zero or more
  fixed-length numeric vectors, one per detected face"): an image is
  represented by the list of face encodings the extractor produced for it.
* File-system and HTTP effects are modelled by explicit inputs (file contents
  as `Option String`, per-item processing as `Except`-valued functions).
-/

/-- An embedding vector (fixed-length sequence of floats in the source). -/
abbrev Vec := List ℚ

/-- One record of the persisted store `encodings.json`: in `face_api.py` each
entry is a dict `{"name": ..., "encoding": ...}`. -/
structure EmbeddingRecord where
  name : String
  encoding : Vec
deriving DecidableEq, Repr

/-- The pydantic model `Match(name, distance)` of `face_api.py`. -/
structure Match where
  name : String
  distance : ℚ
deriving DecidableEq, Repr

/-- The pydantic model `FaceMatches(faceIndex, matches)` of `face_api.py`. -/
structure FaceMatches where
  faceIndex : Nat
  «matches» : List Match
deriving DecidableEq, Repr

/-- Python `str.strip()` on the registration name: drop whitespace from both
ends.  (`String.trim` of core Lean computes the same thing but does not reduce
in the kernel, so we embed the operation directly on the character list.) -/
def strip (s : String) : String :=
  ⟨((s.data.dropWhile Char.isWhitespace).reverse.dropWhile Char.isWhitespace).reverse⟩

/-- The Python comparison `dist <= threshold` of `face_api.py` line 118, with
the threshold allowed to be `+∞`. -/
def qualifies (t : WithTop ℚ) (dist : ℚ) : Bool :=
  decide ((dist : WithTop ℚ) ≤ t)

/-- One update of the Python dict `best_by_name` (`face_api.py` lines 119-120):
`if (name not in best_by_name) or (dist < best_by_name[name]): ...`.
Python dicts preserve insertion order, so the dict is an association list: a
new key is appended at the end, an existing key keeps its position and its
value is lowered when the new distance is smaller. -/
def updateBest (acc : List (String × ℚ)) (n : String) (dist : ℚ) : List (String × ℚ) :=
  match acc with
  | [] => [(n, dist)]
  | p :: rest =>
    if p.1 = n then (if dist < p.2 then (n, dist) else p) :: rest
    else p :: updateBest rest n dist

/-- The loop of `face_api.py` lines 115-120: fold over the store (the code
zips `known_names` with the distances of all records, in store order), keeping
per identity the minimum distance among the records whose distance is within
the threshold. -/
def bestByName (d : Vec → Vec → ℚ) (enc : Vec) (t : WithTop ℚ)
    (records : List EmbeddingRecord) : List (String × ℚ) :=
  records.foldl
    (fun acc r =>
      if qualifies t (d r.encoding enc) then updateBest acc r.name (d r.encoding enc)
      else acc)
    []

/-- The comparator of `matches.sort(key=lambda m: m.distance)`. -/
def matchLE (a b : Match) : Prop := a.distance ≤ b.distance

instance : DecidableRel matchLE :=
  fun a b => inferInstanceAs (Decidable (a.distance ≤ b.distance))

instance : IsTotal Match matchLE := ⟨fun a b => le_total a.distance b.distance⟩

instance : IsTrans Match matchLE := ⟨fun _ _ _ h1 h2 => le_trans h1 h2⟩

/-- `best_matches_for_encoding` of `face_api.py` lines 102-124: compute the
distance of the probe to every stored vector, keep the per-identity minimum of
the within-threshold distances, and sort ascending by distance.  Python's
`list.sort` is stable; `List.insertionSort` with the total preorder `matchLE`
is a stable sort, and any two stable sorts under the same comparator agree. -/
def best_matches_for_encoding (d : Vec → Vec → ℚ) (encoding : Vec)
    (records : List EmbeddingRecord) (threshold : WithTop ℚ) : List Match :=
  if records.isEmpty then []
  else List.insertionSort matchLE
    ((bestByName d encoding threshold records).map (fun p => ⟨p.1, p.2⟩))

/-- `load_encodings` of `face_api.py` lines 88-95.  The file system and the
JSON parser (`json.load`, external) are modelled as explicit inputs: the file
contents (`none` when `encodings.json` does not exist) and a parse function
(`none` models the exception caught by the bare `except`). -/
def load_encodings (parse : String → Option (List EmbeddingRecord))
    (fileContents : Option String) : List EmbeddingRecord :=
  match fileContents with
  | none => []
  | some s =>
    match parse s with
    | none => []
    | some records => records

/-- Result of the `/faces/register` endpoint: either an `HTTPException`
(status code and detail) or a `RegisterResponse(ok=True, name, encodingsCount)`. -/
inductive RegisterResult where
  | error (status : Nat) (detail : String)
  | ok (name : String) (encodingsCount : Nat)
deriving DecidableEq, Repr

/-- `register_face` of `face_api.py` lines 147-183.  The image is represented
by the extractor's output `faces` (one encoding per detected face, per the
extractor contract, so `boxes` and `encs` of the source are both mirrored by
`faces`).  Returns the HTTP result together with the new store contents; the
side-channel saving of the raw image under `faces_db/<name>/` is a file-system
effect outside the store and is not modelled. -/
def register_face (name : String) (faces : List Vec)
    (records : List EmbeddingRecord) : RegisterResult × List EmbeddingRecord :=
  if faces.isEmpty then
    (.error 400 ("No face detected in image"), records)
  else if faces.length ≠ 1 then
    (.error 400 ("Please register with exactly ONE clear face (no group photo)."), records)
  else if faces.isEmpty then
    -- `if not encs` in the source; unreachable given one encoding per detected face
    (.error 400 ("Failed to compute encodings"), records)
  else
    let newRecord : EmbeddingRecord := ⟨strip name, faces.headD []⟩
    let newRecords := records ++ [newRecord]
    let encCount := (newRecords.filter (fun r => r.name = strip name)).length
    (.ok (strip name) encCount, newRecords)

/-- `recognize_faces_in_image` of `face_api.py` lines 126-144.  The store is
passed in as `records` (the source calls `load_encodings()` at this point; the
load itself is modelled by `load_encodings` above).  Note the source returns
`[]` when the store is empty even if faces were detected. -/
def recognize_faces_in_image (d : Vec → Vec → ℚ) (faces : List Vec)
    (records : List EmbeddingRecord) (threshold : WithTop ℚ) : List FaceMatches :=
  if faces.isEmpty then []
  else if records.isEmpty then []
  else faces.enum.map (fun p => ⟨p.1, best_matches_for_encoding d p.2 records threshold⟩)

/-- The pydantic model `RecognizeResponse(ok, faces)` of `face_api.py`. -/
structure RecognizeResponse where
  ok : Bool
  faces : List FaceMatches
deriving DecidableEq, Repr

/-- `recognize_face` of `face_api.py` lines 186-191 (post image decoding):
resolve the optional threshold to the default `0.6` and run recognition. -/
def recognize_face (d : Vec → Vec → ℚ) (faces : List Vec)
    (records : List EmbeddingRecord) (threshold : Option ℚ) : RecognizeResponse :=
  ⟨true, recognize_faces_in_image d faces records ((threshold.getD 0.6 : ℚ) : WithTop ℚ)⟩

/-- The pydantic model `RecognizeBatchItem(index, faces)` of `face_api.py`.
It has no error field. -/
structure RecognizeBatchItem where
  index : Nat
  faces : List FaceMatches
deriving DecidableEq, Repr

/-- The pydantic model `RecognizeBatchResponse(ok, count, results)`. -/
structure RecognizeBatchResponse where
  ok : Bool
  count : Nat
  results : List RecognizeBatchItem
deriving DecidableEq, Repr

/-- One loop iteration of `face_api.py` lines 202-209: the per-item work
(base64 decoding plus extraction plus matching, all wrapped by the
`try/except`) is an external-effect pipeline modelled by
`proc : ℚ → String → Except String (List FaceMatches)` taking the resolved
threshold and the base64 payload; on success the slot carries the faces, on
any exception the slot carries an empty face list (the model has no error
field). -/
def apiBatchItem (proc : ℚ → String → Except String (List FaceMatches))
    (t : ℚ) (p : Nat × String) : RecognizeBatchItem :=
  match proc t p.2 with
  | .ok faces => ⟨p.1, faces⟩
  | .error _ => ⟨p.1, []⟩

/-- `recognize_face_batch` of `face_api.py` lines 194-211.
`[x for x in (lst or []) if x][:8]` keeps the non-empty entries of the
submitted list and truncates to 8; the results are enumerated over that
filtered list. -/
def recognize_face_batch (proc : ℚ → String → Except String (List FaceMatches))
    (imageBase64List : List String) (threshold : Option ℚ) : RecognizeBatchResponse :=
  let t : ℚ := threshold.getD 0.6
  let images := (imageBase64List.filter (fun s => !s.isEmpty)).take 8
  let results := images.enum.map (apiBatchItem proc t)
  ⟨true, images.length, results⟩

/-- A match dict of `face_service.py` (`deepface_find_best`): personId, display
name and distance (the bounding box is the constant `{0,0,1,1}` and is
omitted). -/
structure ServiceMatch where
  personId : String
  name : String
  distance : ℚ
deriving DecidableEq, Repr

/-- One result dict of `face_service.py`'s `/faces/recognize_batch`:
`{"index": idx, "matches": [...]}` on success and
`{"index": idx, "matches": [], "error": str(e)}` on failure. -/
structure ServiceBatchItem where
  index : Nat
  «matches» : List ServiceMatch
  error : Option String
deriving DecidableEq, Repr

/-- The response dict of `face_service.py`'s `/faces/recognize_batch`. -/
structure ServiceBatchResponse where
  ok : Bool
  count : Nat
  results : List ServiceBatchItem
deriving DecidableEq, Repr

/-- One loop iteration of `face_service.py` lines 165-175: the per-item work
(saving the temp file plus `deepface_find_best`, wrapped by the `try/except`)
is modelled by `proc`; on success the slot carries the matches and no error;
on a caught exception it carries an empty match list together with the error
string. -/
def serviceBatchItem (proc : ℚ → String → Except String (List ServiceMatch))
    (t : ℚ) (p : Nat × String) : ServiceBatchItem :=
  match proc t p.2 with
  | .ok ms => ⟨p.1, ms, none⟩
  | .error e => ⟨p.1, [], some e⟩

/-- `recognize_face_batch` of `face_service.py` lines 145-177.
`facesDirNonempty` models `os.listdir(FACES_DIR)` being non-empty (otherwise
the endpoint returns an empty response immediately). -/
def recognize_face_batch_service (proc : ℚ → String → Except String (List ServiceMatch))
    (facesDirNonempty : Bool) (imageBase64List : List String)
    (threshold : Option ℚ) : ServiceBatchResponse :=
  if !facesDirNonempty then ⟨true, 0, []⟩
  else
    let t : ℚ := threshold.getD 0.8
    let imgs := (imageBase64List.filter (fun s => !s.isEmpty)).take 8
    let results := imgs.enum.map (serviceBatchItem proc t)
    ⟨true, imgs.length, results⟩

/-- Modelled from the spec (§4.2 steps 3-5), for the refinement claim: first
group by identity keeping the minimum distance over all of that identity's
stored vectors (no threshold), then discard identities whose minimum exceeds
the threshold, then sort ascending by distance.  This is the specification's
ordering of per-identity-min and threshold filter; the source applies the
filter record-by-record before taking the minimum. -/
def best_matches_spec (d : Vec → Vec → ℚ) (encoding : Vec)
    (records : List EmbeddingRecord) (threshold : WithTop ℚ) : List Match :=
  if records.isEmpty then []
  else
    let grouped := records.foldl (fun acc r => updateBest acc r.name (d r.encoding encoding)) []
    let surviving := grouped.filter (fun p => qualifies threshold p.2)
    List.insertionSort matchLE (surviving.map (fun p => ⟨p.1, p.2⟩))

/-- The distances of the records of identity `n` that lie within threshold
`t`, in store order (used to state what the matcher's per-identity minimum
ranges over). -/
def qualDists (d : Vec → Vec → ℚ) (enc : Vec) (t : WithTop ℚ)
    (records : List EmbeddingRecord) (n : String) : List ℚ :=
  (records.filter (fun r => r.name = n ∧ qualifies t (d r.encoding enc))).map
    (fun r => d r.encoding enc)

/-- Minimum of a list of rationals (`none` for the empty list). -/
def listMin : List ℚ → Option ℚ
  | [] => none
  | x :: xs =>
    some (match listMin xs with
    | none => x
    | some v => min x v)

/-- Index of the first record of identity `n` whose distance to the probe is
within the threshold (length of the store when there is none). -/
def firstQualIdx (d : Vec → Vec → ℚ) (enc : Vec) (t : WithTop ℚ)
    (records : List EmbeddingRecord) (n : String) : Nat :=
  match records with
  | [] => 0
  | r :: rs =>
    if r.name = n ∧ qualifies t (d r.encoding enc) then 0
    else firstQualIdx d enc t rs n + 1

/-- Index of the first record of identity `n` (the identity's registration
position; length of the store when the identity never occurs). -/
def firstRegIdx (records : List EmbeddingRecord) (n : String) : Nat :=
  match records with
  | [] => 0
  | r :: rs => if r.name = n then 0 else firstRegIdx rs n + 1

/-- Association-list lookup used to reason about `bestByName`. -/
def alookup : List (String × ℚ) → String → Option ℚ
  | [], _ => none
  | p :: ps, n => if p.1 = n then some p.2 else alookup ps n

/-- Distance table used by the concrete counterexamples.  It realizes, without
rational subtraction (which does not reduce in the kernel), the Euclidean
distances of one-dimensional vectors: with probe `[5]`, the vector `[0]` is at
distance `5` and the vector `[4]` at distance `1`. -/
def cexDist (x y : Vec) : ℚ :=
  if x = [(0 : ℚ)] ∧ y = [(5 : ℚ)] then 5 else 1

/-- Store used by the concrete counterexamples: identity `A` registered first
(vector `[0]`), then `B` (vector `[4]`), then a second photo of `A`
(vector `[4]`). -/
def cexRecords : List EmbeddingRecord :=
  [⟨"A", [(0 : ℚ)]⟩, ⟨"B", [(4 : ℚ)]⟩, ⟨"A", [(4 : ℚ)]⟩]

/-- Minimum combination used when a new distance is folded into an optional
current best. -/
def omin : Option ℚ → ℚ → ℚ
  | none, x => x
  | some v, x => min v x

/-- The order the matcher's output actually satisfies: strictly increasing
distance, or equal distance with strictly increasing value of the ranking
function `F` (instantiated with the first-qualifying-record index). -/
def matchOrder (F : Match → Nat) (a b : Match) : Prop :=
  a.distance < b.distance ∨ (a.distance = b.distance ∧ F a < F b)

/-- Per-item processing that fails on the payload `"b"` and finds nothing on
any other payload (models a batch whose second image is corrupted). -/
def procFailB : ℚ → String → Except String (List FaceMatches) :=
  fun _ s => if s = "b" then .error ("boom") else .ok []

/-- Per-item processing that succeeds with an empty match list everywhere. -/
def procOkEmpty : ℚ → String → Except String (List FaceMatches) :=
  fun _ _ => .ok []

/-- Service-variant per-item processing failing on the payload `"b"`. -/
def procFailS : ℚ → String → Except String (List ServiceMatch) :=
  fun _ s => if s = "b" then .error ("decode failure") else .ok []

/-! ## Basic lemmas about the matcher's building blocks -/

theorem best_matches_eq (d : Vec → Vec → ℚ) (enc : Vec) (t : WithTop ℚ)
    (records : List EmbeddingRecord) :
    best_matches_for_encoding d enc records t =
      List.insertionSort matchLE ((bestByName d enc t records).map (fun p => ⟨p.1, p.2⟩)) := by
  cases records with
  | nil => rfl
  | cons r rs => rfl

theorem qualifies_top (dist : ℚ) : qualifies ⊤ dist = true := by
  simp [qualifies]

theorem qualifies_mono {t1 t2 : WithTop ℚ} (h : t1 ≤ t2) {dist : ℚ}
    (hq : qualifies t1 dist = true) : qualifies t2 dist = true := by
  simp only [qualifies, decide_eq_true_eq] at hq ⊢
  exact le_trans hq h

theorem listMin_cons (x : ℚ) (l : List ℚ) :
    listMin (x :: l) = some (omin (listMin l) x) := by
  cases h : listMin l with
  | none => simp [listMin, h, omin]
  | some v => simp [listMin, h, omin, min_comm]

theorem listMin_append_one (l : List ℚ) (x : ℚ) :
    listMin (l ++ [x]) = some (omin (listMin l) x) := by
  induction l with
  | nil => simp [listMin, omin]
  | cons y l ih =>
    rw [List.cons_append, listMin_cons, ih, listMin_cons]
    cases h : listMin l with
    | none => simp only [omin, Option.some.injEq]; rw [min_comm]
    | some v => simp only [omin, Option.some.injEq]; rw [min_assoc, min_comm x y, ← min_assoc]

theorem listMin_eq_none_iff (l : List ℚ) : listMin l = none ↔ l = [] := by
  cases l with
  | nil => simp [listMin]
  | cons x xs => simp [listMin]

theorem alookup_cons (p : String × ℚ) (l : List (String × ℚ)) (n : String) :
    alookup (p :: l) n = if p.1 = n then some p.2 else alookup l n := rfl

theorem updateBest_nil (n : String) (dist : ℚ) : updateBest [] n dist = [(n, dist)] := rfl

theorem updateBest_cons (p : String × ℚ) (acc : List (String × ℚ)) (n : String) (dist : ℚ) :
    updateBest (p :: acc) n dist =
      if p.1 = n then (if dist < p.2 then (n, dist) else p) :: acc
      else p :: updateBest acc n dist := rfl

theorem alookup_updateBest (acc : List (String × ℚ)) (m n : String) (dist : ℚ) :
    alookup (updateBest acc m dist) n =
      if m = n then some (omin (alookup acc n) dist) else alookup acc n := by
  induction acc with
  | nil =>
    by_cases h : m = n <;> simp [updateBest, alookup, h, omin]
  | cons p acc ih =>
    rw [updateBest_cons]
    by_cases hpm : p.1 = m
    · rw [if_pos hpm]
      by_cases hmn : m = n
      · subst hmn
        by_cases hd : dist < p.2
        · simp [hd, alookup_cons, hpm, omin, min_eq_right (le_of_lt hd)]
        · simp [hd, alookup_cons, hpm, omin, min_eq_left (not_lt.mp hd)]
      · have hpn : ¬ p.1 = n := by rw [hpm]; exact hmn
        by_cases hd : dist < p.2 <;> simp [hd, alookup_cons, hpn, hmn]
    · rw [if_neg hpm]
      by_cases hpn : p.1 = n
      · have hmn : ¬ m = n := fun h => hpm (by rw [h, hpn])
        simp [alookup_cons, hpn, hmn]
      · simp [alookup_cons, hpn, ih]

theorem keys_updateBest (acc : List (String × ℚ)) (n : String) (dist : ℚ) :
    (updateBest acc n dist).map Prod.fst =
      if n ∈ acc.map Prod.fst then acc.map Prod.fst else acc.map Prod.fst ++ [n] := by
  induction acc with
  | nil => simp [updateBest]
  | cons p acc ih =>
    by_cases hpn : p.1 = n
    · by_cases hd : dist < p.2 <;>
        simp [updateBest, hpn, hd, List.map_cons]
    · have : n ≠ p.1 := fun h => hpn h.symm
      by_cases hmem : n ∈ acc.map Prod.fst <;>
        simp [updateBest, hpn, List.map_cons, ih, hmem, this]

theorem alookup_eq_none_iff (l : List (String × ℚ)) (n : String) :
    alookup l n = none ↔ n ∉ l.map Prod.fst := by
  induction l with
  | nil => simp [alookup]
  | cons p l ih =>
    by_cases hpn : p.1 = n
    · rw [alookup_cons, if_pos hpn, List.map_cons]
      constructor
      · intro h
        exact absurd h (Option.some_ne_none _)
      · intro h
        exact absurd (hpn ▸ List.mem_cons_self p.1 (l.map Prod.fst)) h
    · rw [alookup_cons, if_neg hpn, ih, List.map_cons]
      simp only [List.mem_cons, not_or]
      constructor
      · intro h
        exact ⟨fun he => hpn he.symm, h⟩
      · intro h
        exact h.2

theorem mem_of_alookup_eq_some {l : List (String × ℚ)} {n : String} {v : ℚ}
    (h : alookup l n = some v) : (n, v) ∈ l := by
  induction l with
  | nil => simp [alookup] at h
  | cons p l ih =>
    by_cases hpn : p.1 = n
    · rw [alookup_cons, if_pos hpn] at h
      cases p with
      | mk a b =>
        cases h
        cases hpn
        exact List.mem_cons_self _ _
    · rw [alookup_cons, if_neg hpn] at h
      exact List.mem_cons_of_mem _ (ih h)

theorem alookup_eq_some_of_mem {l : List (String × ℚ)} {n : String} {v : ℚ}
    (hnd : (l.map Prod.fst).Nodup) (h : (n, v) ∈ l) : alookup l n = some v := by
  induction l with
  | nil => simp at h
  | cons p l ih =>
    rcases List.mem_cons.mp h with h | h
    · rw [← h, alookup_cons, if_pos rfl]
    · have hpn : p.1 ≠ n := by
        intro he
        have hm : n ∈ l.map Prod.fst := List.mem_map.mpr ⟨(n, v), h, rfl⟩
        rw [List.map_cons, List.nodup_cons, he] at hnd
        exact hnd.1 hm
      rw [alookup_cons, if_neg hpn]
      exact ih (by rw [List.map_cons, List.nodup_cons] at hnd; exact hnd.2) h

theorem mem_map_toMatch (B : List (String × ℚ)) (m : Match) :
    m ∈ B.map (fun p => (⟨p.1, p.2⟩ : Match)) ↔ (m.name, m.distance) ∈ B := by
  constructor
  · intro h
    rcases List.mem_map.mp h with ⟨p, hp, he⟩
    cases m
    cases he
    exact hp
  · intro h
    exact List.mem_map.mpr ⟨(m.name, m.distance), h, rfl⟩

/-! ## Characterization of `bestByName` -/

theorem bestByName_append_one (d : Vec → Vec → ℚ) (enc : Vec) (t : WithTop ℚ)
    (rs : List EmbeddingRecord) (r : EmbeddingRecord) :
    bestByName d enc t (rs ++ [r]) =
      if qualifies t (d r.encoding enc) then
        updateBest (bestByName d enc t rs) r.name (d r.encoding enc)
      else bestByName d enc t rs := by
  unfold bestByName
  rw [List.foldl_append]
  rfl

theorem qualDists_append_one (d : Vec → Vec → ℚ) (enc : Vec) (t : WithTop ℚ)
    (rs : List EmbeddingRecord) (r : EmbeddingRecord) (n : String) :
    qualDists d enc t (rs ++ [r]) n =
      qualDists d enc t rs n ++
        (if r.name = n ∧ qualifies t (d r.encoding enc) then [d r.encoding enc] else []) := by
  unfold qualDists
  rw [List.filter_append, List.map_append]
  by_cases h : r.name = n ∧ qualifies t (d r.encoding enc) <;> simp [h]

theorem alookup_bestByName (d : Vec → Vec → ℚ) (enc : Vec) (t : WithTop ℚ)
    (rs : List EmbeddingRecord) (n : String) :
    alookup (bestByName d enc t rs) n = listMin (qualDists d enc t rs n) := by
  induction rs using List.reverseRecOn with
  | nil => rfl
  | append_singleton rs r ih =>
    rw [bestByName_append_one, qualDists_append_one]
    by_cases hq : qualifies t (d r.encoding enc)
    · rw [if_pos hq, alookup_updateBest]
      by_cases hn : r.name = n
      · rw [if_pos hn, if_pos ⟨hn, hq⟩, listMin_append_one, ih]
      · rw [if_neg hn, if_neg (fun h => hn h.1), List.append_nil, ih]
    · rw [if_neg hq, if_neg (fun h => hq h.2), List.append_nil, ih]

theorem keys_bestByName_nodup (d : Vec → Vec → ℚ) (enc : Vec) (t : WithTop ℚ)
    (rs : List EmbeddingRecord) :
    ((bestByName d enc t rs).map Prod.fst).Nodup := by
  induction rs using List.reverseRecOn with
  | nil => simp [bestByName]
  | append_singleton rs r ih =>
    rw [bestByName_append_one]
    by_cases hq : qualifies t (d r.encoding enc)
    · rw [if_pos hq, keys_updateBest]
      by_cases hmem : r.name ∈ (bestByName d enc t rs).map Prod.fst
      · rwa [if_pos hmem]
      · rw [if_neg hmem]
        simp [List.nodup_append, ih, hmem]
    · rwa [if_neg hq]

theorem mem_keys_bestByName (d : Vec → Vec → ℚ) (enc : Vec) (t : WithTop ℚ)
    (rs : List EmbeddingRecord) (n : String) :
    n ∈ (bestByName d enc t rs).map Prod.fst ↔
      ∃ r ∈ rs, r.name = n ∧ qualifies t (d r.encoding enc) := by
  rw [← not_iff_not, ← alookup_eq_none_iff, alookup_bestByName, listMin_eq_none_iff]
  unfold qualDists
  rw [List.map_eq_nil_iff, List.filter_eq_nil_iff]
  constructor
  · intro h ⟨r, hr, hn, hq⟩
    exact h r hr (by simp [hn, hq])
  · intro h r hr hc
    simp only [decide_eq_true_eq] at hc
    exact h ⟨r, hr, hc.1, hc.2⟩

theorem mem_bestByName_iff (d : Vec → Vec → ℚ) (enc : Vec) (t : WithTop ℚ)
    (rs : List EmbeddingRecord) (n : String) (v : ℚ) :
    (n, v) ∈ bestByName d enc t rs ↔ listMin (qualDists d enc t rs n) = some v := by
  constructor
  · intro h
    rw [← alookup_bestByName]
    exact alookup_eq_some_of_mem (keys_bestByName_nodup d enc t rs) h
  · intro h
    rw [← alookup_bestByName] at h
    exact mem_of_alookup_eq_some h

theorem mem_best_matches_iff (d : Vec → Vec → ℚ) (enc : Vec) (t : WithTop ℚ)
    (rs : List EmbeddingRecord) (m : Match) :
    m ∈ best_matches_for_encoding d enc rs t ↔
      listMin (qualDists d enc t rs m.name) = some m.distance := by
  rw [best_matches_eq, List.mem_insertionSort, mem_map_toMatch, mem_bestByName_iff]

/-! ## Threshold monotonicity of the per-identity minimum -/

theorem le_of_qualifies {t : WithTop ℚ} {dist : ℚ} (h : qualifies t dist = true) :
    (dist : WithTop ℚ) ≤ t := by
  simpa [qualifies] using h

theorem not_le_of_not_qualifies {t : WithTop ℚ} {dist : ℚ}
    (h : ¬ (qualifies t dist = true)) : ¬ ((dist : WithTop ℚ) ≤ t) := by
  intro hle
  exact h (by simp [qualifies, hle])

theorem qualDists_cons (d : Vec → Vec → ℚ) (enc : Vec) (t : WithTop ℚ)
    (r : EmbeddingRecord) (rs : List EmbeddingRecord) (n : String) :
    qualDists d enc t (r :: rs) n =
      if r.name = n ∧ qualifies t (d r.encoding enc) then
        d r.encoding enc :: qualDists d enc t rs n
      else qualDists d enc t rs n := by
  unfold qualDists
  rw [List.filter_cons]
  by_cases h : r.name = n ∧ qualifies t (d r.encoding enc) <;> simp [h]

/-- How the per-identity minimum behaves when the threshold is relaxed from
`t1` to `t2`: either there is no within-threshold record at either threshold,
or only at `t2` (and then its minimum exceeds `t1`), or the two minima agree
(and lie within `t1`). -/
theorem listMin_qualDists_tri (d : Vec → Vec → ℚ) (enc : Vec) {t1 t2 : WithTop ℚ}
    (h : t1 ≤ t2) (rs : List EmbeddingRecord) (n : String) :
    (listMin (qualDists d enc t1 rs n) = none ∧ listMin (qualDists d enc t2 rs n) = none) ∨
    (listMin (qualDists d enc t1 rs n) = none ∧
      ∃ w, listMin (qualDists d enc t2 rs n) = some w ∧ ¬ ((w : WithTop ℚ) ≤ t1)) ∨
    (∃ v, listMin (qualDists d enc t1 rs n) = some v ∧
      listMin (qualDists d enc t2 rs n) = some v ∧ ((v : WithTop ℚ) ≤ t1)) := by
  induction rs with
  | nil => exact Or.inl ⟨rfl, rfl⟩
  | cons r rs ih =>
    rw [qualDists_cons, qualDists_cons]
    by_cases hn : r.name = n
    · by_cases hq1 : qualifies t1 (d r.encoding enc) = true
      · have hq2 : qualifies t2 (d r.encoding enc) = true := qualifies_mono h hq1
        rw [if_pos ⟨hn, hq1⟩, if_pos ⟨hn, hq2⟩, listMin_cons, listMin_cons]
        have hd1 := le_of_qualifies hq1
        rcases ih with ⟨h1, h2⟩ | ⟨h1, w, h2, hw⟩ | ⟨v, h1, h2, hv⟩
        · exact Or.inr (Or.inr ⟨d r.encoding enc, by rw [h1]; rfl, by rw [h2]; rfl, hd1⟩)
        · have hdw : d r.encoding enc < w :=
            WithTop.coe_lt_coe.mp (lt_of_le_of_lt hd1 (not_le.mp hw))
          refine Or.inr (Or.inr ⟨d r.encoding enc, by rw [h1]; rfl, ?_, hd1⟩)
          rw [h2]
          simp [omin, min_eq_right (le_of_lt hdw)]
        · refine Or.inr (Or.inr ⟨min v (d r.encoding enc), by rw [h1]; rfl, by rw [h2]; rfl, ?_⟩)
          exact le_trans (WithTop.coe_le_coe.mpr (min_le_left v (d r.encoding enc))) hv
      · have hnd1 := not_le_of_not_qualifies hq1
        by_cases hq2 : qualifies t2 (d r.encoding enc) = true
        · rw [if_neg (fun hh => hq1 hh.2), if_pos ⟨hn, hq2⟩, listMin_cons]
          rcases ih with ⟨h1, h2⟩ | ⟨h1, w, h2, hw⟩ | ⟨v, h1, h2, hv⟩
          · exact Or.inr (Or.inl ⟨h1, d r.encoding enc, by rw [h2]; rfl, hnd1⟩)
          · refine Or.inr (Or.inl ⟨h1, min w (d r.encoding enc), by rw [h2]; rfl, ?_⟩)
            rw [WithTop.coe_min]
            exact not_le.mpr (lt_min (not_le.mp hw) (not_le.mp hnd1))
          · have hvd : v < d r.encoding enc :=
              WithTop.coe_lt_coe.mp (lt_of_le_of_lt hv (not_le.mp hnd1))
            refine Or.inr (Or.inr ⟨v, h1, ?_, hv⟩)
            rw [h2]
            simp [omin, min_eq_left (le_of_lt hvd)]
        · rw [if_neg (fun hh => hq1 hh.2), if_neg (fun hh => hq2 hh.2)]
          exact ih
    · rw [if_neg (fun hh => hn hh.1), if_neg (fun hh => hn hh.1)]
      exact ih

/-! ## Stability of the sort and tie-break order -/

theorem matchOrder_le {F : Match → Nat} {a b : Match} (h : matchOrder F a b) :
    a.distance ≤ b.distance := by
  rcases h with h | ⟨h, _⟩
  · exact le_of_lt h
  · exact le_of_eq h

theorem matchLE_iff (a b : Match) : matchLE a b ↔ a.distance ≤ b.distance := Iff.rfl

theorem orderedInsert_pairwise (F : Match → Nat) (a : Match) (s : List Match)
    (hs : s.Pairwise (matchOrder F))
    (ha : ∀ x ∈ s, a.distance = x.distance → F a < F x) :
    (List.orderedInsert matchLE a s).Pairwise (matchOrder F) := by
  induction s with
  | nil => simp [List.orderedInsert]
  | cons x s ih =>
    rw [List.orderedInsert]
    by_cases hax : matchLE a x
    · rw [if_pos hax]
      refine List.Pairwise.cons ?_ hs
      intro y hy
      rcases List.mem_cons.mp hy with rfl | hy
      · rcases lt_or_eq_of_le ((matchLE_iff a y).mp hax) with hlt | heq
        · exact Or.inl hlt
        · exact Or.inr ⟨heq, ha _ (List.mem_cons_self _ _) heq⟩
      · have hxy : matchOrder F x y := (List.pairwise_cons.mp hs).1 y hy
        rcases lt_or_eq_of_le (le_trans ((matchLE_iff a x).mp hax) (matchOrder_le hxy)) with
          hlt | heq
        · exact Or.inl hlt
        · exact Or.inr ⟨heq, ha _ (List.mem_cons_of_mem _ hy) heq⟩
    · rw [if_neg hax]
      have hxa : matchOrder F x a := Or.inl (not_le.mp (fun hc => hax ((matchLE_iff a x).mpr hc)))
      refine List.Pairwise.cons ?_
        (ih (List.pairwise_cons.mp hs).2 (fun z hz he => ha z (List.mem_cons_of_mem _ hz) he))
      intro z hz
      rcases (List.mem_orderedInsert matchLE).mp hz with rfl | hz
      · exact hxa
      · exact (List.pairwise_cons.mp hs).1 z hz

theorem insertionSort_pairwise (F : Match → Nat) (l : List Match)
    (hl : l.Pairwise (fun a b => F a < F b)) :
    (List.insertionSort matchLE l).Pairwise (matchOrder F) := by
  induction l with
  | nil => simp [List.insertionSort]
  | cons a l ih =>
    simp only [List.insertionSort]
    refine orderedInsert_pairwise F a _ (ih (List.pairwise_cons.mp hl).2) ?_
    intro x hx _
    exact (List.pairwise_cons.mp hl).1 x ((List.mem_insertionSort matchLE).mp hx)

/-! ## First-qualifying-record indices -/

theorem firstQualIdx_cons (d : Vec → Vec → ℚ) (enc : Vec) (t : WithTop ℚ)
    (r : EmbeddingRecord) (rs : List EmbeddingRecord) (n : String) :
    firstQualIdx d enc t (r :: rs) n =
      if r.name = n ∧ qualifies t (d r.encoding enc) then 0
      else firstQualIdx d enc t rs n + 1 := rfl

theorem firstQualIdx_le_length (d : Vec → Vec → ℚ) (enc : Vec) (t : WithTop ℚ)
    (rs : List EmbeddingRecord) (n : String) :
    firstQualIdx d enc t rs n ≤ rs.length := by
  induction rs with
  | nil => exact Nat.le_refl 0
  | cons r rs ih =>
    rw [firstQualIdx_cons]
    by_cases h : r.name = n ∧ qualifies t (d r.encoding enc)
    · rw [if_pos h]
      exact Nat.zero_le _
    · rw [if_neg h, List.length_cons]
      exact Nat.succ_le_succ ih

theorem firstQualIdx_lt_length_iff (d : Vec → Vec → ℚ) (enc : Vec) (t : WithTop ℚ)
    (rs : List EmbeddingRecord) (n : String) :
    firstQualIdx d enc t rs n < rs.length ↔
      ∃ r ∈ rs, r.name = n ∧ qualifies t (d r.encoding enc) := by
  induction rs with
  | nil => simp [firstQualIdx]
  | cons r rs ih =>
    rw [firstQualIdx_cons]
    by_cases h : r.name = n ∧ qualifies t (d r.encoding enc)
    · rw [if_pos h]
      simp only [List.length_cons]
      constructor
      · intro _
        exact ⟨r, List.mem_cons_self _ _, h⟩
      · intro _
        exact Nat.succ_pos _
    · rw [if_neg h, List.length_cons]
      constructor
      · intro hlt
        rcases ih.mp (Nat.lt_of_succ_lt_succ hlt) with ⟨q, hq, hqn⟩
        exact ⟨q, List.mem_cons_of_mem _ hq, hqn⟩
      · intro ⟨q, hq, hqn⟩
        rcases List.mem_cons.mp hq with rfl | hq
        · exact absurd hqn h
        · exact Nat.succ_lt_succ (ih.mpr ⟨q, hq, hqn⟩)

theorem firstQualIdx_append_of_lt (d : Vec → Vec → ℚ) (enc : Vec) (t : WithTop ℚ)
    {rs : List EmbeddingRecord} {n : String} (l2 : List EmbeddingRecord)
    (h : firstQualIdx d enc t rs n < rs.length) :
    firstQualIdx d enc t (rs ++ l2) n = firstQualIdx d enc t rs n := by
  induction rs with
  | nil => simp at h
  | cons r rs ih =>
    rw [firstQualIdx_cons, List.length_cons] at h
    rw [List.cons_append, firstQualIdx_cons, firstQualIdx_cons]
    by_cases hc : r.name = n ∧ qualifies t (d r.encoding enc)
    · rw [if_pos hc, if_pos hc]
    · rw [if_neg hc] at h
      rw [if_neg hc, if_neg hc, ih (Nat.lt_of_succ_lt_succ h)]

theorem firstQualIdx_append_of_eq (d : Vec → Vec → ℚ) (enc : Vec) (t : WithTop ℚ)
    {rs : List EmbeddingRecord} {n : String} (l2 : List EmbeddingRecord)
    (h : firstQualIdx d enc t rs n = rs.length) :
    firstQualIdx d enc t (rs ++ l2) n = rs.length + firstQualIdx d enc t l2 n := by
  induction rs with
  | nil => simp [firstQualIdx]
  | cons r rs ih =>
    rw [firstQualIdx_cons, List.length_cons] at h
    rw [List.cons_append, firstQualIdx_cons]
    by_cases hc : r.name = n ∧ qualifies t (d r.encoding enc)
    · rw [if_pos hc] at h
      exact absurd h.symm (Nat.succ_ne_zero _)
    · rw [if_neg hc] at h
      rw [if_neg hc, ih (Nat.succ_injective h), List.length_cons]
      omega

theorem keys_bestByName_pairwise (d : Vec → Vec → ℚ) (enc : Vec) (t : WithTop ℚ)
    (rs : List EmbeddingRecord) :
    ((bestByName d enc t rs).map Prod.fst).Pairwise
      (fun a b => firstQualIdx d enc t rs a < firstQualIdx d enc t rs b) := by
  induction rs using List.reverseRecOn with
  | nil => simp [bestByName]
  | append_singleton rs r ih =>
    have hfix : ∀ m ∈ (bestByName d enc t rs).map Prod.fst,
        firstQualIdx d enc t (rs ++ [r]) m = firstQualIdx d enc t rs m := by
      intro m hm
      exact firstQualIdx_append_of_lt d enc t [r]
        ((firstQualIdx_lt_length_iff d enc t rs m).mpr
          ((mem_keys_bestByName d enc t rs m).mp hm))
    have hlt : ∀ m ∈ (bestByName d enc t rs).map Prod.fst,
        firstQualIdx d enc t rs m < rs.length :=
      fun m hm => (firstQualIdx_lt_length_iff d enc t rs m).mpr
        ((mem_keys_bestByName d enc t rs m).mp hm)
    rw [bestByName_append_one]
    by_cases hq : qualifies t (d r.encoding enc)
    · rw [if_pos hq, keys_updateBest]
      by_cases hmem : r.name ∈ (bestByName d enc t rs).map Prod.fst
      · rw [if_pos hmem]
        exact ih.imp_of_mem (fun ha hb hab => by rw [hfix _ ha, hfix _ hb]; exact hab)
      · rw [if_neg hmem]
        rw [List.pairwise_append]
        refine ⟨ih.imp_of_mem (fun ha hb hab => by rw [hfix _ ha, hfix _ hb]; exact hab),
          List.pairwise_singleton _ _, ?_⟩
        intro a ha b hb
        rcases List.mem_singleton.mp hb with rfl
        have hnew : firstQualIdx d enc t (rs ++ [r]) r.name = rs.length := by
          have heq : firstQualIdx d enc t rs r.name = rs.length := by
            refine Nat.le_antisymm (firstQualIdx_le_length d enc t rs r.name) ?_
            by_contra hcon
            exact hmem ((mem_keys_bestByName d enc t rs r.name).mpr
              ((firstQualIdx_lt_length_iff d enc t rs r.name).mp
                (Nat.lt_of_not_le hcon)))
          rw [firstQualIdx_append_of_eq d enc t [r] heq, firstQualIdx_cons,
            if_pos ⟨rfl, hq⟩, Nat.add_zero]
        rw [hfix _ ha, hnew]
        exact hlt _ ha
    · rw [if_neg hq]
      exact ih.imp_of_mem (fun ha hb hab => by rw [hfix _ ha, hfix _ hb]; exact hab)

/-! ## Claim theorems for the matcher -/

theorem qualDists_top (d : Vec → Vec → ℚ) (enc : Vec) (rs : List EmbeddingRecord) (n : String) :
    qualDists d enc ⊤ rs n =
      (rs.filter (fun r => r.name = n)).map (fun r => d r.encoding enc) := by
  unfold qualDists
  congr 1
  apply List.filter_congr
  intro r _
  simp [qualifies_top]

theorem names_best_matches_perm (d : Vec → Vec → ℚ) (enc : Vec) (t : WithTop ℚ)
    (rs : List EmbeddingRecord) :
    ((best_matches_for_encoding d enc rs t).map Match.name).Perm
      ((bestByName d enc t rs).map Prod.fst) := by
  rw [best_matches_eq]
  have h1 := (List.perm_insertionSort matchLE
    ((bestByName d enc t rs).map (fun p => (⟨p.1, p.2⟩ : Match)))).map Match.name
  have h2 : (((bestByName d enc t rs).map (fun p => (⟨p.1, p.2⟩ : Match))).map Match.name) =
      (bestByName d enc t rs).map Prod.fst := by
    rw [List.map_map]
    rfl
  rw [h2] at h1
  exact h1

/-- C1: with threshold `+∞`, the matcher returns exactly one `Match` per
distinct identity occurring in the store (its names are duplicate-free and
range over exactly the stored identities), and each returned distance is the
minimum of the distances from the probe to that identity's stored vectors. -/
theorem c1_dedup_and_min_at_top (d : Vec → Vec → ℚ) (enc : Vec)
    (rs : List EmbeddingRecord) :
    ((best_matches_for_encoding d enc rs ⊤).map Match.name).Nodup ∧
    (∀ n : String, n ∈ (best_matches_for_encoding d enc rs ⊤).map Match.name ↔
      n ∈ rs.map EmbeddingRecord.name) ∧
    (∀ m ∈ best_matches_for_encoding d enc rs ⊤,
      listMin ((rs.filter (fun r => r.name = m.name)).map (fun r => d r.encoding enc)) =
        some m.distance) := by
  have hperm := names_best_matches_perm d enc ⊤ rs
  refine ⟨(hperm.nodup_iff).mpr (keys_bestByName_nodup d enc ⊤ rs), ?_, ?_⟩
  · intro n
    rw [hperm.mem_iff, mem_keys_bestByName]
    constructor
    · intro ⟨r, hr, hn, _⟩
      exact List.mem_map.mpr ⟨r, hr, hn⟩
    · intro h
      rcases List.mem_map.mp h with ⟨r, hr, hn⟩
      exact ⟨r, hr, hn, qualifies_top _⟩
  · intro m hm
    rw [mem_best_matches_iff, qualDists_top] at hm
    exact hm

/-- C7: relaxing the threshold can only grow the result set — every match
returned at threshold `s` is returned at any larger threshold `u`. -/
theorem c7_threshold_monotone (d : Vec → Vec → ℚ) (enc : Vec)
    (rs : List EmbeddingRecord) (s u : WithTop ℚ) (h : s < u) :
    ∀ m ∈ best_matches_for_encoding d enc rs s, m ∈ best_matches_for_encoding d enc rs u := by
  intro m hm
  rw [mem_best_matches_iff] at hm ⊢
  rcases listMin_qualDists_tri d enc (le_of_lt h) rs m.name with
    ⟨h1, _⟩ | ⟨h1, _, _, _⟩ | ⟨v, h1, h2, _⟩
  · rw [hm] at h1
    cases h1
  · rw [hm] at h1
    cases h1
  · rw [hm] at h1
    injection h1 with h1
    rw [← h1] at h2
    exact h2

theorem c7_threshold_monotone_witness :
    (⟨"B", 1⟩ : Match) ∈ best_matches_for_encoding cexDist [(5 : ℚ)] cexRecords ⊤ :=
  c7_threshold_monotone cexDist [(5 : ℚ)] cexRecords ((3 : ℚ) : WithTop ℚ) ⊤
    (by decide) ⟨"B", 1⟩ (by decide)

/-- C6 (amended): the matcher's output is sorted non-decreasing by distance,
and entries with equal distance appear in the order of their identities' first
within-threshold record in the store (first-qualifying order). -/
theorem c6_sorted_and_tiebreak (d : Vec → Vec → ℚ) (enc : Vec)
    (rs : List EmbeddingRecord) (t : WithTop ℚ) :
    (best_matches_for_encoding d enc rs t).Pairwise (fun a b =>
      a.distance ≤ b.distance ∧
        (a.distance = b.distance →
          firstQualIdx d enc t rs a.name < firstQualIdx d enc t rs b.name)) := by
  rw [best_matches_eq]
  have hkeys := keys_bestByName_pairwise d enc t rs
  rw [List.pairwise_map] at hkeys
  have hmap : ((bestByName d enc t rs).map (fun p => (⟨p.1, p.2⟩ : Match))).Pairwise
      (fun a b => firstQualIdx d enc t rs a.name < firstQualIdx d enc t rs b.name) := by
    rw [List.pairwise_map]
    exact hkeys
  have hW := insertionSort_pairwise (fun m => firstQualIdx d enc t rs m.name) _ hmap
  refine hW.imp ?_
  intro a b h
  refine ⟨matchOrder_le h, fun he => ?_⟩
  rcases h with h | ⟨_, h⟩
  · exact absurd he (ne_of_lt h)
  · exact h

/-- C6 counterexample: at threshold 3 the store `cexRecords` (identity `A`
registered before `B`) yields the tied output `[B at 1, A at 1]`, which is not
in first-registration order. -/
theorem c6_tiebreak_counterexample :
    ¬ (best_matches_for_encoding cexDist [(5 : ℚ)] cexRecords ((3 : ℚ) : WithTop ℚ)).Pairwise
      (fun a b => a.distance = b.distance →
        firstRegIdx cexRecords a.name < firstRegIdx cexRecords b.name) := by
  decide

theorem c1_dedup_and_min_at_top_witness :
    listMin ((cexRecords.filter (fun r => r.name = "A")).map
      (fun r => cexDist r.encoding [(5 : ℚ)])) = some 1 :=
  (c1_dedup_and_min_at_top cexDist [(5 : ℚ)] cexRecords).2.2 ⟨"A", 1⟩ (by decide)

/-! ## The refinement claim: filter-then-min versus min-then-filter -/

theorem grouped_eq_bestByName_top (d : Vec → Vec → ℚ) (enc : Vec)
    (rs : List EmbeddingRecord) :
    rs.foldl (fun acc r => updateBest acc r.name (d r.encoding enc)) [] =
      bestByName d enc ⊤ rs := by
  unfold bestByName
  apply List.foldl_ext
  intro acc r _
  rw [if_pos]
  exact qualifies_top _

theorem best_matches_spec_eq (d : Vec → Vec → ℚ) (enc : Vec) (t : WithTop ℚ)
    (rs : List EmbeddingRecord) :
    best_matches_spec d enc rs t =
      List.insertionSort matchLE
        (((bestByName d enc ⊤ rs).filter (fun p => qualifies t p.2)).map
          (fun p => ⟨p.1, p.2⟩)) := by
  cases rs with
  | nil => rfl
  | cons r rs =>
    unfold best_matches_spec
    rw [if_neg (by simp), grouped_eq_bestByName_top]

theorem bestByName_filter_perm (d : Vec → Vec → ℚ) (enc : Vec) (t : WithTop ℚ)
    (rs : List EmbeddingRecord) :
    (bestByName d enc t rs).Perm
      ((bestByName d enc ⊤ rs).filter (fun p => qualifies t p.2)) := by
  apply List.perm_of_nodup_nodup_toFinset_eq
  · exact (keys_bestByName_nodup d enc t rs).of_map
  · exact (List.filter_sublist _).nodup (keys_bestByName_nodup d enc ⊤ rs).of_map
  · apply Finset.ext
    intro p
    rw [List.mem_toFinset, List.mem_toFinset, List.mem_filter]
    cases p with
    | mk n v =>
      rw [mem_bestByName_iff, mem_bestByName_iff]
      constructor
      · intro h
        rcases listMin_qualDists_tri d enc (le_top : t ≤ ⊤) rs n with
          ⟨h1, _⟩ | ⟨h1, _, _, _⟩ | ⟨v0, h1, h2, hv0⟩
        · rw [h] at h1
          cases h1
        · rw [h] at h1
          cases h1
        · rw [h] at h1
          injection h1 with h1
          subst h1
          refine ⟨h2, ?_⟩
          simp only [qualifies, decide_eq_true_eq]
          exact hv0
      · intro ⟨ht, hq⟩
        have hvle : ((v : ℚ) : WithTop ℚ) ≤ t := by
          simpa [qualifies] using hq
        rcases listMin_qualDists_tri d enc (le_top : t ≤ ⊤) rs n with
          ⟨_, h2⟩ | ⟨_, w, h2, hw⟩ | ⟨v0, h1, h2, _⟩
        · rw [ht] at h2
          cases h2
        · rw [ht] at h2
          injection h2 with h2
          exact absurd (h2 ▸ hvle) hw
        · rw [ht] at h2
          injection h2 with h2
          rw [h2]
          exact h1

/-- C10 (amended): applying the threshold filter before the per-identity
minimum (as the source does) and applying it after (as the specification
words it) produce the same multiset of matches — the same identities with the
same distances; the sorted lists can differ only in the relative order of
equal-distance entries. -/
theorem c10_filter_min_commute_perm (d : Vec → Vec → ℚ) (enc : Vec)
    (rs : List EmbeddingRecord) (t : WithTop ℚ) :
    (best_matches_for_encoding d enc rs t).Perm (best_matches_spec d enc rs t) := by
  rw [best_matches_eq, best_matches_spec_eq]
  exact (List.perm_insertionSort matchLE _).trans
    (((bestByName_filter_perm d enc t rs).map _).trans
      (List.perm_insertionSort matchLE _).symm)

/-- C10 counterexample: on `cexRecords` at threshold 3 the source's
filter-then-min output `[B at 1, A at 1]` differs as a list from the
specification's min-then-filter output `[A at 1, B at 1]`. -/
theorem c10_counterexample :
    best_matches_for_encoding cexDist [(5 : ℚ)] cexRecords ((3 : ℚ) : WithTop ℚ) ≠
      best_matches_spec cexDist [(5 : ℚ)] cexRecords ((3 : ℚ) : WithTop ℚ) := by
  decide

/-! ## Registration, load, recognition and batch claims -/

/-- C2: registering with zero detected faces fails with the "no face" error,
with two or more detected faces fails with the distinct "multiple faces"
error, and with exactly one detected face succeeds, appends one record for
the trimmed identity, increases that identity's stored count by exactly one,
and returns that new count. -/
theorem c2_register_validation (name : String) (e : Vec) (faces : List Vec)
    (records : List EmbeddingRecord) :
    (faces = [] →
      register_face name faces records =
        (.error 400 ("No face detected in image"), records)) ∧
    (2 ≤ faces.length →
      register_face name faces records =
        (.error 400 ("Please register with exactly ONE clear face (no group photo)."),
          records)) ∧
    (("No face detected in image" : String) ≠
      "Please register with exactly ONE clear face (no group photo).") ∧
    (faces = [e] →
      register_face name faces records =
        (.ok (strip name) ((records.filter (fun r => r.name = strip name)).length + 1),
          records ++ [(⟨strip name, e⟩ : EmbeddingRecord)]) ∧
      ((records ++ [(⟨strip name, e⟩ : EmbeddingRecord)]).filter (fun r => r.name = strip name)).length =
        (records.filter (fun r => r.name = strip name)).length + 1) := by
  refine ⟨?_, ?_, by decide, ?_⟩
  · intro h
    subst h
    rfl
  · intro h
    cases faces with
    | nil => simp at h
    | cons f fs =>
      unfold register_face
      rw [if_neg (by simp), if_pos (by simp only [List.length_cons] at h ⊢; omega)]
  · intro h
    subst h
    have hcount : ((records ++ [(⟨strip name, e⟩ : EmbeddingRecord)]).filter
        (fun r => r.name = strip name)).length =
        (records.filter (fun r => r.name = strip name)).length + 1 := by
      rw [List.filter_append]
      simp
    refine ⟨?_, hcount⟩
    unfold register_face
    rw [if_neg (by simp), if_neg (by simp), if_neg (by simp)]
    simp only [List.headD_cons]
    rw [hcount]

theorem c2_register_validation_witness :
    register_face (" Alice ") [] [] = (.error 400 ("No face detected in image"), []) ∧
    register_face (" Alice ") [[(1 : ℚ)], [(2 : ℚ)]] [] =
      (.error 400 ("Please register with exactly ONE clear face (no group photo)."), []) ∧
    register_face (" Alice ") [[(1 : ℚ)]] [] =
      (.ok (strip (" Alice "))
        ((([] : List EmbeddingRecord).filter (fun r => r.name = strip (" Alice "))).length + 1),
        [] ++ [⟨strip (" Alice "), [(1 : ℚ)]⟩]) :=
  ⟨(c2_register_validation (" Alice ") [(1 : ℚ)] [] []).1 rfl,
    (c2_register_validation (" Alice ") [(1 : ℚ)] [[(1 : ℚ)], [(2 : ℚ)]] []).2.1 (by decide),
    ((c2_register_validation (" Alice ") [(1 : ℚ)] [[(1 : ℚ)]] []).2.2.2 rfl).1⟩

/-- C4: loading the store fails soft — a missing file or unparsable contents
yield the empty store, and `load_encodings` is a total function (it cannot
raise). -/
theorem c4_load_fails_soft (parse : String → Option (List EmbeddingRecord)) :
    load_encodings parse none = [] ∧
    ∀ s : String, parse s = none → load_encodings parse (some s) = [] := by
  refine ⟨rfl, ?_⟩
  intro s h
  simp [load_encodings, h]

theorem c4_load_fails_soft_witness :
    load_encodings (fun _ => none) (some ("not json")) = [] :=
  (c4_load_fails_soft (fun _ => none)).2 ("not json") rfl

/-- C5 counterexample: registering with a name that is blank (empty after
trimming) is not rejected — it succeeds with `ok`, identity `""` and count 1,
contradicting the claimed validation error. -/
theorem c5_counterexample :
    register_face ("  ") [[(0 : ℚ)]] [] = (.ok ("") 1, [⟨"", [(0 : ℚ)]⟩]) := by
  decide

/-- C5 (amended): no empty-identity validation is performed: for every name
that is empty after trimming, single-face registration succeeds and appends a
record whose identity is the empty string. -/
theorem c5_no_empty_identity_validation (name : String) (e : Vec)
    (records : List EmbeddingRecord) (h : strip name = "") :
    register_face name [e] records =
      (.ok ("") ((records.filter (fun r => r.name = "")).length + 1),
        records ++ [(⟨"", e⟩ : EmbeddingRecord)]) := by
  unfold register_face
  rw [if_neg (by simp), if_neg (by simp), if_neg (by simp), h]
  have hcount : ((records ++ [(⟨"", e⟩ : EmbeddingRecord)]).filter (fun r => r.name = "")).length =
      (records.filter (fun r => r.name = "")).length + 1 := by
    rw [List.filter_append]
    simp
  simp only [List.headD_cons]
  rw [hcount]

theorem c5_no_empty_identity_validation_witness :
    register_face (" ") [[(2 : ℚ)]] [] = (.ok ("") 1, [⟨"", [(2 : ℚ)]⟩]) :=
  c5_no_empty_identity_validation (" ") [(2 : ℚ)] [] (by decide)

theorem recognize_faces_eq (d : Vec → Vec → ℚ) (faces : List Vec)
    (records : List EmbeddingRecord) (t : WithTop ℚ) (h : records ≠ []) :
    recognize_faces_in_image d faces records t =
      faces.enum.map (fun p => ⟨p.1, best_matches_for_encoding d p.2 records t⟩) := by
  unfold recognize_faces_in_image
  cases faces with
  | nil => simp
  | cons f fs =>
    rw [if_neg (by simp), if_neg (by simp [List.isEmpty_iff, h])]

/-- C8 (amended): single-image recognition always answers `ok`; with zero
detected faces the face list is empty; with a non-empty store the response
carries exactly one `FaceMatches` per detected face, in detection order, with
`faceIndex` equal to the detection position and the matcher's result for that
face; but with an empty store the face list is empty regardless of how many
faces were detected. -/
theorem c8_recognition_per_face (d : Vec → Vec → ℚ) (faces : List Vec)
    (records : List EmbeddingRecord) (th : Option ℚ) :
    (recognize_face d faces records th).ok = true ∧
    (faces = [] → (recognize_face d faces records th).faces = []) ∧
    (records = [] → (recognize_face d faces records th).faces = []) ∧
    (records ≠ [] →
      (recognize_face d faces records th).faces.length = faces.length ∧
      ∀ i (h1 : i < (recognize_face d faces records th).faces.length)
        (h2 : i < faces.length),
        ((recognize_face d faces records th).faces.get ⟨i, h1⟩).faceIndex = i ∧
        ((recognize_face d faces records th).faces.get ⟨i, h1⟩).matches =
          best_matches_for_encoding d (faces.get ⟨i, h2⟩) records
            ((th.getD 0.6 : ℚ) : WithTop ℚ)) := by
  refine ⟨rfl, ?_, ?_, ?_⟩
  · intro h
    subst h
    rfl
  · intro h
    subst h
    unfold recognize_face recognize_faces_in_image
    cases faces with
    | nil => rfl
    | cons f fs => rfl
  · intro h
    unfold recognize_face
    rw [recognize_faces_eq d faces records _ h]
    refine ⟨by simp, ?_⟩
    intro i h1 h2
    constructor
    · rw [List.get_eq_getElem, List.getElem_map, List.getElem_enum]
    · rw [List.get_eq_getElem, List.getElem_map, List.getElem_enum,
        List.get_eq_getElem]

/-- C8 counterexample: one face is detected but the store is empty, and the
response carries zero `FaceMatches` instead of one per detected face. -/
theorem c8_counterexample :
    ¬ ((recognize_face cexDist [[(0 : ℚ)]] [] none).faces.length =
      [[(0 : ℚ)]].length) := by
  decide

theorem c8_recognition_per_face_witness :
    ((recognize_face cexDist [[(4 : ℚ)]] cexRecords none).faces.get
      ⟨0, by decide⟩).faceIndex = 0 :=
  (((c8_recognition_per_face cexDist [[(4 : ℚ)]] cexRecords none).2.2.2
    (by decide)).2 0 (by decide) (by decide)).1

theorem get_enum_map {α β : Type} (f : Nat × α → β) (l : List α) (i : Nat)
    (h : i < (l.enum.map f).length) (h2 : i < l.length) :
    (l.enum.map f).get ⟨i, h⟩ = f (i, l.get ⟨i, h2⟩) := by
  rw [List.get_eq_getElem, List.getElem_map, List.getElem_enum, List.get_eq_getElem]

theorem index_enum_map {α β : Type} (f : Nat × α → β) (g : β → Nat)
    (hf : ∀ p, g (f p) = p.1) (l : List α) (i : Nat) (h : i < (l.enum.map f).length) :
    g ((l.enum.map f).get ⟨i, h⟩) = i := by
  rw [List.get_eq_getElem, List.getElem_map, List.getElem_enum]
  exact hf _

/-- C9 (amended): the batch endpoint accepts at most 8 images — the non-empty
entries of the submitted list, truncated to 8 — and both `count` and the
results list have exactly one entry per accepted image in input order, each
tagged with its position in the filtered, truncated list (which is the
original index only when no empty entries precede it). -/
theorem c9_batch_count_and_index (proc : ℚ → String → Except String (List FaceMatches))
    (lst : List String) (th : Option ℚ) :
    (recognize_face_batch proc lst th).count =
      ((lst.filter (fun s => !s.isEmpty)).take 8).length ∧
    (recognize_face_batch proc lst th).results.length =
      ((lst.filter (fun s => !s.isEmpty)).take 8).length ∧
    (recognize_face_batch proc lst th).count ≤ 8 ∧
    ∀ i (h : i < (recognize_face_batch proc lst th).results.length),
      ((recognize_face_batch proc lst th).results.get ⟨i, h⟩).index = i := by
  refine ⟨rfl, by simp [recognize_face_batch], ?_, ?_⟩
  · show ((lst.filter (fun s => !s.isEmpty)).take 8).length ≤ 8
    rw [List.length_take]
    exact min_le_left _ _
  · intro i h
    have h2 : i < (((lst.filter (fun s : String => !s.isEmpty)).take 8).enum.map
        (apiBatchItem proc (th.getD 0.6))).length := h
    refine Eq.trans ?_ (index_enum_map (apiBatchItem proc (th.getD 0.6))
      RecognizeBatchItem.index ?_ ((lst.filter (fun s : String => !s.isEmpty)).take 8) i h2)
    · rfl
    · intro p
      unfold apiBatchItem
      cases proc (th.getD 0.6) p.2 <;> rfl

/-- C9 counterexample: submitting `["", "x"]` yields a single result tagged
with index 0, although the accepted image `"x"` sits at original index 1 of
the submitted list. -/
theorem c9_counterexample :
    (recognize_face_batch (fun _ _ => .ok []) ["", "x"] none).results =
      [⟨0, []⟩] := by
  decide

theorem c9_batch_count_and_index_witness :
    ((recognize_face_batch (fun _ _ => .ok []) ["a", "b"] none).results.get
      ⟨1, by decide⟩).index = 1 :=
  (c9_batch_count_and_index (fun _ _ => .ok []) ["a", "b"] none).2.2.2 1 (by decide)

/-- C3 (amended): per-item isolation in both batch endpoints.  Every result
slot is a function of its own accepted image alone, so a failure at one index
cannot affect any other index.  In `face_service.py` a failing item's slot
carries the caught error string together with an empty match list; in
`face_api.py` the failing slot carries only an empty face list — the response
model has no error field, so no error marker distinguishes it from a
successful zero-face item. -/
theorem c3_batch_isolation (pa : ℚ → String → Except String (List FaceMatches))
    (ps : ℚ → String → Except String (List ServiceMatch))
    (lst : List String) (th : Option ℚ) :
    ((recognize_face_batch pa lst th).results.length =
      ((lst.filter (fun s : String => !s.isEmpty)).take 8).length) ∧
    (∀ i (h1 : i < (recognize_face_batch pa lst th).results.length)
      (h2 : i < ((lst.filter (fun s : String => !s.isEmpty)).take 8).length),
      (recognize_face_batch pa lst th).results.get ⟨i, h1⟩ =
        apiBatchItem pa (th.getD 0.6)
          (i, ((lst.filter (fun s : String => !s.isEmpty)).take 8).get ⟨i, h2⟩)) ∧
    ((recognize_face_batch_service ps true lst th).results.length =
      ((lst.filter (fun s : String => !s.isEmpty)).take 8).length) ∧
    (∀ i (h1 : i < (recognize_face_batch_service ps true lst th).results.length)
      (h2 : i < ((lst.filter (fun s : String => !s.isEmpty)).take 8).length),
      (recognize_face_batch_service ps true lst th).results.get ⟨i, h1⟩ =
        serviceBatchItem ps (th.getD 0.8)
          (i, ((lst.filter (fun s : String => !s.isEmpty)).take 8).get ⟨i, h2⟩)) ∧
    (∀ (t : ℚ) (ms : List ServiceMatch) (p : Nat × String),
      ps t p.2 = .ok ms → serviceBatchItem ps t p = ⟨p.1, ms, none⟩) ∧
    (∀ (t : ℚ) (e : String) (p : Nat × String),
      ps t p.2 = .error e → serviceBatchItem ps t p = ⟨p.1, [], some e⟩) := by
  refine ⟨by simp [recognize_face_batch], ?_,
    by simp [recognize_face_batch_service], ?_, ?_, ?_⟩
  · intro i h1 h2
    exact get_enum_map (apiBatchItem pa (th.getD 0.6))
      ((lst.filter (fun s : String => !s.isEmpty)).take 8) i h1 h2
  · intro i h1 h2
    exact get_enum_map (serviceBatchItem ps (th.getD 0.8))
      ((lst.filter (fun s : String => !s.isEmpty)).take 8) i h1 h2
  · intro t ms p h
    unfold serviceBatchItem
    rw [h]
  · intro t e p h
    unfold serviceBatchItem
    rw [h]

/-- C3 counterexample (against `face_api.py`): in a 3-image batch whose second
image fails, the failing slot is `⟨1, []⟩` — the whole response, slot by slot,
is identical to that of a batch in which every image succeeds with zero
matches, so the failing index carries no error marker. -/
theorem c3_counterexample :
    recognize_face_batch procFailB ["a", "b", "c"] none =
      recognize_face_batch procOkEmpty ["a", "b", "c"] none ∧
    (recognize_face_batch procFailB ["a", "b", "c"] none).results =
      [⟨0, []⟩, ⟨1, []⟩, ⟨2, []⟩] := by
  constructor
  · decide
  · decide

theorem c3_batch_isolation_witness :
    (recognize_face_batch_service procFailS true ["a", "b", "c"] none).results.get
      ⟨1, by decide⟩ = ⟨1, [], some ("decode failure")⟩ := by
  have h := (c3_batch_isolation procFailB procFailS ["a", "b", "c"] none).2.2.2.1 1
    (by decide) (by decide)
  rw [h]
  decide

theorem c6_sorted_and_tiebreak_witness :
    (best_matches_for_encoding cexDist [(5 : ℚ)] cexRecords ((3 : ℚ) : WithTop ℚ)).Pairwise
      (fun a b => a.distance ≤ b.distance ∧
        (a.distance = b.distance →
          firstQualIdx cexDist [(5 : ℚ)] ((3 : ℚ) : WithTop ℚ) cexRecords a.name <
            firstQualIdx cexDist [(5 : ℚ)] ((3 : ℚ) : WithTop ℚ) cexRecords b.name)) :=
  c6_sorted_and_tiebreak cexDist [(5 : ℚ)] cexRecords ((3 : ℚ) : WithTop ℚ)

theorem c10_filter_min_commute_perm_witness :
    (best_matches_for_encoding cexDist [(5 : ℚ)] cexRecords ⊤).Perm
      (best_matches_spec cexDist [(5 : ℚ)] cexRecords ⊤) :=
  c10_filter_min_commute_perm cexDist [(5 : ℚ)] cexRecords ⊤
